import Mathlib

/-!
# Verification of `sk_kernel_counter_batch.py`

Shallow embedding of the kernel-counting pipeline from
`sk_kernel_counter_batch.py` and proofs about the claims of its
specification.

Modelling conventions:
* numpy 2-D arrays (images, label masks) are `List (List _)` of rows;
  a 3-channel image is a grid of `ℚ × ℚ × ℚ` pixels.
* machine floats are modelled as `ℚ`; the one place a float NaN matters
  (`scipy.ndimage.center_of_mass` of an absent label, a 0/0) is modelled
  with `Option`, `none` standing for the NaN pair that the source then
  filters out.
* Python's built-in `round` (round half to even) is `pyRound`.
* third-party numerical routines whose output the claims quantify over
  (the Gaussian blur, the composition of h-dome filtering and watershed
  segmentation, the random-initialisation k-means assignment) appear as
  function parameters; library routines whose behaviour a claim is
  *about* (morphological reconstruction by dilation, the sklearn KMeans
  sample-count check, numpy fancy indexing) are embedded explicitly.
-/

namespace SKKernelCounter

/-! ## Basic helpers -/

/-- Python 3 built-in `round` on a rational value: round half to even
(banker's rounding).  `crop_edges` wraps it in `int(...)`, which is the
identity on the integer result. -/
def pyRound (q : ℚ) : ℤ :=
  if q - ⌊q⌋ < 1/2 then ⌊q⌋
  else if 1/2 < q - ⌊q⌋ then ⌊q⌋ + 1
  else if ⌊q⌋ % 2 = 0 then ⌊q⌋ else ⌊q⌋ + 1

/-- numpy `array.shape[1]`: the number of columns of a rectangular grid. -/
def numCols {α : Type} (image : List (List α)) : ℕ :=
  (image.head?.getD []).length

/-! ## `crop_edges` (source lines 66-77) -/

/-- Embedding of `crop_edges(input_image, input_percent)`:
`left = int(round(percent * width))`, `right = int(round(width - percent * width))`,
result `image[:, left:right]`.  The Python slice `row[left:right]` is
`(row.take right).drop left`; for the percentages the spec admits
(`0 ≤ p ≤ 0.5`) both bounds are nonnegative, so the `Int.toNat`
conversions are exact and Python's negative-index wrap-around is never
exercised. -/
def crop_edges {α : Type} (input_image : List (List α)) (input_percent : ℚ) :
    List (List α) :=
  let crop_column_width : ℚ := numCols input_image
  let left_crop_column : ℤ := pyRound (input_percent * crop_column_width)
  let right_crop_column : ℤ :=
    pyRound (crop_column_width - input_percent * crop_column_width)
  input_image.map (fun row =>
    (row.take right_crop_column.toNat).drop left_crop_column.toNat)

/-! ## `remove_bottom_edge` (source lines 207-214) -/

/-- Label masks are integer grids, `0` = background. -/
abbrev Mask := List (List ℕ)

/-- numpy `mask[mask.shape[0] - 1, :]`: the bottom row of the mask. -/
def lastRow (mask : Mask) : List ℕ :=
  mask.getLast?.getD []

/-- numpy `np.max(mask)`: the largest entry of the grid (`np.max`
reduces with `max` over every entry). -/
def maskMax (mask : Mask) : ℕ :=
  mask.foldl (fun acc row => row.foldl max acc) 0

/-- One iteration of the `remove_bottom_edge` loop body:
`if object_num in mask[-1, :]: mask[mask == object_num] = 0`. -/
def removeStep (mask : Mask) (object_num : ℕ) : Mask :=
  if object_num ∈ lastRow mask then
    mask.map (List.map (fun v => if v = object_num then 0 else v))
  else mask

/-- Embedding of `remove_bottom_edge(labeled_image_mask)`: the loop
`for object_num in range(1, np.max(mask) + 1)` runs `removeStep`
sequentially on the (mutated-in-place) mask. -/
def remove_bottom_edge (labeled_image_mask : Mask) : Mask :=
  (List.range' 1 (maskMax labeled_image_mask)).foldl removeStep labeled_image_mask

/-- Pointwise description of the first `n` iterations of the
`remove_bottom_edge` loop over the original mask's bottom row `rr`:
labels `1..n` that occur in `rr` are zeroed, everything else is kept. -/
def zeroUpTo (rr : List ℕ) (n v : ℕ) : ℕ :=
  if v ≠ 0 ∧ v ≤ n ∧ v ∈ rr then 0 else v

/-! ## `find_centers` (source lines 226-239) -/

/-- Column indices (starting at `j`) of the entries of one mask row that
are equal to the label `l` (the columns selected by the numpy boolean
index `mask == l` within that row). -/
def rowLabelCols (row : List ℕ) (l j : ℕ) : List ℕ :=
  match row with
  | [] => []
  | v :: rest =>
      if v = l then j :: rowLabelCols rest l (j + 1) else rowLabelCols rest l (j + 1)

/-- Positions `(i, j)` of the pixels of label `l`, scanning rows from
row index `i` downward. -/
def labelPixelsAux (m : Mask) (l i : ℕ) : List (ℕ × ℕ) :=
  match m with
  | [] => []
  | row :: rest =>
      (rowLabelCols row l 0).map (fun j => (i, j)) ++ labelPixelsAux rest l (i + 1)

/-- Positions of the pixels carrying label `l` (the numpy boolean mask
`mask == l`). -/
def labelPixels (m : Mask) (l : ℕ) : List (ℕ × ℕ) :=
  labelPixelsAux m l 0

/-- Embedding of `ndi.center_of_mass(array, array, [l])` for one label
`l`: the coordinate average over the pixels of label `l`, weighted by
the input image values — which here ARE the label values, so every
selected pixel has weight `l`.  When the label has no pixels the weight
sum is `0` and scipy returns `(nan, nan)`; that is the `none` case. -/
def center_of_mass (m : Mask) (l : ℕ) : Option (ℚ × ℚ) :=
  let ps := labelPixels m l
  if ps = [] then none
  else
    some ((ps.map (fun p => (l : ℚ) * p.1)).sum / (ps.map (fun _ => (l : ℚ))).sum,
          (ps.map (fun p => (l : ℚ) * p.2)).sum / (ps.map (fun _ => (l : ℚ))).sum)

/-- Embedding of `find_centers(input_array)`: centers of mass of labels
`1 .. np.max(array)`, then the list comprehension
`[x for x in centers if str(x[0]) != 'nan']`, which drops exactly the
NaN entries (the labels with zero pixels), modelled by dropping the
`none` entries. -/
def find_centers (input_array : Mask) : List (ℚ × ℚ) :=
  let centers := (List.range' 1 (maskMax input_array)).map (center_of_mass input_array)
  centers.filterMap id

/-! ## `mean_intensity` (source lines 253-278) -/

/-- A 3-channel image: a grid of `(red, green, blue)` pixels. -/
abbrev Image := List (List (ℚ × ℚ × ℚ))

/-- Mean of a list of rationals (`np.mean`).  Only applied to nonempty
selections in the source paths modelled here. -/
def qmean (xs : List ℚ) : ℚ :=
  xs.sum / (xs.length : ℚ)

/-- numpy `channel_image[mask == l]`: the channel values of the pixels
carrying label `l`, in row-major order. -/
def maskedChannel (channel_image : List (List ℚ)) (m : Mask) (l : ℕ) : List ℚ :=
  (channel_image.zip m).flatMap
    (fun rr => (rr.1.zip rr.2).filterMap (fun pv => if pv.2 = l then some pv.1 else none))

/-- Python `object_num in mask` on a numpy array: whether the value
occurs anywhere in the grid. -/
def containsLabel (m : Mask) (l : ℕ) : Bool :=
  m.any (fun row => row.any (fun v => v == l))

/-- Embedding of `mean_intensity(input_image, input_mask)`: for each
`object_num in range(1, np.max(mask) + 1)` with `object_num in mask`,
the per-channel means over the pixels of that label.  The source
appends to three per-channel Python lists and `np.column_stack`s them
into an N×3 array; the rows of that array are exactly this list of
triples. -/
def mean_intensity (input_image : Image) (input_mask : Mask) : List (ℚ × ℚ × ℚ) :=
  let red_image := input_image.map (List.map (fun px => px.1))
  let green_image := input_image.map (List.map (fun px => px.2.1))
  let blue_image := input_image.map (List.map (fun px => px.2.2))
  (List.range' 1 (maskMax input_mask)).filterMap (fun object_num =>
    if containsLabel input_mask object_num then
      some (qmean (maskedChannel red_image input_mask object_num),
            qmean (maskedChannel green_image input_mask object_num),
            qmean (maskedChannel blue_image input_mask object_num))
    else none)

/-- The labels `1 .. np.max(mask)` that still have at least one pixel:
the common enumeration order of `find_centers` and `mean_intensity`. -/
def survivingLabels (m : Mask) : List ℕ :=
  (List.range' 1 (maskMax m)).filter (fun l => containsLabel m l)

/-- Total version of the center of mass of label `l` (the `some` payload
of `center_of_mass`; junk `0/0 = 0` when the label has no pixels, never
used on `survivingLabels`). -/
def centroidOf (m : Mask) (l : ℕ) : ℚ × ℚ :=
  (((labelPixels m l).map (fun p => (l : ℚ) * p.1)).sum /
     ((labelPixels m l).map (fun _ => (l : ℚ))).sum,
   ((labelPixels m l).map (fun p => (l : ℚ) * p.2)).sum /
     ((labelPixels m l).map (fun _ => (l : ℚ))).sum)

/-- The per-channel mean triple of label `l` (the `some` payload of the
`mean_intensity` filter). -/
def meanTripleOf (input_image : Image) (input_mask : Mask) (l : ℕ) : ℚ × ℚ × ℚ :=
  (qmean (maskedChannel (input_image.map (List.map (fun px => px.1))) input_mask l),
   qmean (maskedChannel (input_image.map (List.map (fun px => px.2.1))) input_mask l),
   qmean (maskedChannel (input_image.map (List.map (fun px => px.2.2))) input_mask l))

/-! ## `kmeans_from_rgb` (source lines 290-294) and
`which_is_more_green` (source lines 313-335) -/

/-- Embedding of `kmeans_from_rgb(rgb_input)` =
`KMeans(n_clusters=2).fit(rgb)`.  sklearn validates
`n_samples >= n_clusters` and raises `ValueError` when fewer than two
samples are supplied (`none` here); the cluster assignment itself
depends on the random initialisation and is abstracted as the `oracle`
parameter (its output is `labels_`, one label per input row). -/
def kmeans_from_rgb (oracle : List (ℚ × ℚ × ℚ) → List ℕ)
    (rgb_input : List (ℚ × ℚ × ℚ)) : Option (List ℕ) :=
  if rgb_input.length < 2 then none else some (oracle rgb_input)

/-- Embedding of `which_is_more_green(rgb_input, kmeans_input)`, acting
on the label list `kmeans_input.labels_`.
* `all_green_intensity = rgb_input[:, 1]` is the channel-1 column.
* `label_0_green_mean` indexes it with the Python bool list
  `[not i for i in labels_]`, a numpy *boolean mask* selecting the rows
  whose label is `0`.
* `label_1_green_mean` indexes it with `labels_` itself — an *integer*
  array, hence numpy fancy indexing: it is the mean of
  `all_green_intensity[l]` over the label values `l`, NOT the mean over
  the label-1 group.  (Out-of-range fancy indices would raise in numpy;
  with at least two samples the indices `0`/`1` produced by k-means are
  in range, and the `getD` default is never taken in the claims below.)
* when `label_0_green_mean < label_1_green_mean` the labels are flipped
  by the three sequential in-place rewrites `0 → 3`, `1 → 0`, `3 → 1`. -/
def which_is_more_green (rgb_input : List (ℚ × ℚ × ℚ)) (labels_ : List ℕ) : List ℕ :=
  let all_green_intensity := rgb_input.map (fun px => px.2.1)
  let label_0_green_mean :=
    qmean ((all_green_intensity.zip labels_).filterMap
      (fun p => if p.2 = 0 then some p.1 else none))
  let label_1_green_mean :=
    qmean (labels_.map (fun l => all_green_intensity.getD l 0))
  if label_0_green_mean < label_1_green_mean then
    let labels1 := labels_.map (fun v => if v = 0 then 3 else v)
    let labels2 := labels1.map (fun v => if v = 1 then 0 else v)
    labels2.map (fun v => if v = 3 then 1 else v)
  else labels_

/-- Mean channel-1 (green) intensity over the members of group `g` of a
labelled triple sequence.  This definition follows the specification's
words ("the mean of channel 1 within each group") and is used to compare
the code's canonicalisation against the specified invariant. -/
def groupGreenMean (rgb : List (ℚ × ℚ × ℚ)) (labels_ : List ℕ) (g : ℕ) : ℚ :=
  qmean (((rgb.map (fun px => px.2.1)).zip labels_).filterMap
    (fun p => if p.2 = g then some p.1 else none))

/-! ## `region_based_segmentation` marker construction
(source lines 174-176) -/

/-- Embedding of the watershed marker construction on the rescaled uint8
dome image:
`markers = np.zeros_like(hdome)`, then `markers[hdome < marker_low] = 1`
and afterwards `markers[hdome > marker_high] = 2` — the second
assignment overwrites the first wherever both conditions hold, so the
final value is 2 where `v > high`, else 1 where `v < low`, else 0.
No relation between `marker_low` and `marker_high` is checked anywhere
in the script. -/
def watershed_markers (hdome : List (List ℕ)) (marker_low marker_high : ℕ) :
    List (List ℕ) :=
  hdome.map (List.map (fun v =>
    if v > marker_high then 2 else if v < marker_low then 1 else 0))

/-! ## `count_kernels` (source lines 345-386) -/

/-- numpy `np.unique(values, return_counts=True)[1]` for a list of
natural-number labels: occurrence counts of the distinct values present,
in ascending value order. -/
def uniqueCounts (labels_ : List ℕ) : List ℕ :=
  ((List.range (labels_.foldl max 0 + 1)).filter (fun v => labels_.contains v)).map
    (fun v => labels_.count v)

/-- Embedding of `count_kernels` from the crop onward.  `io.imread` is
file input and is replaced by the in-memory `raw_image`;
`filter_regional_maxima` plus `region_based_segmentation` are a
composition of third-party numerical routines (Gaussian blur,
reconstruction, Sobel, watershed, morphology) whose net effect — a label
mask for the cropped image — enters as the `segmenter` parameter; the
k-means oracle is as in `kmeans_from_rgb`.  After clustering, the counts
are `np.unique` of the label column of
`np.column_stack((centers_x, centers_y, labels))`: the labels, whose
occurrence counts `uniqueCounts` tallies. -/
def count_kernels (segmenter : Image → Mask)
    (oracle : List (ℚ × ℚ × ℚ) → List ℕ)
    (raw_image : Image) (crop_percentage : ℚ) : Option (List ℕ) :=
  let image := crop_edges raw_image crop_percentage
  let image_segments := remove_bottom_edge (segmenter image)
  let segment_centers := find_centers image_segments
  let rgb_intensity := mean_intensity image image_segments
  if rgb_intensity.length = 0 then some [0, 0]
  else
    match kmeans_from_rgb oracle rgb_intensity with
    | none => none
    | some klabels =>
        let labels_ := which_is_more_green rgb_intensity klabels
        let data_array := segment_centers.zip labels_
        some (uniqueCounts (data_array.map (fun r => r.2)))

/-! ## `filter_regional_maxima` (source lines 102-126) -/

/-- Single-channel rational image for the h-dome computation, as an
index function together with its extent (a direct model of a 2-D
ndarray; entries outside the extent are irrelevant junk). -/
structure QImg where
  rows : ℕ
  cols : ℕ
  val : ℕ → ℕ → ℚ

/-- Three-channel rational image for `filter_regional_maxima`.  The
source first applies `img_as_float`, whose uint8 → [0,1] scaling is
absorbed into the rational pixel values. -/
structure RGBImg where
  rows : ℕ
  cols : ℕ
  val : ℕ → ℕ → ℚ × ℚ × ℚ

/-- Channel extraction `image[:, :, 2]` (the blue channel). -/
def blueChannel (img : RGBImg) : QImg :=
  ⟨img.rows, img.cols, fun i j => (img.val i j).2.2⟩

/-- Values of the 3×3 neighbourhood of `(i, j)` that lie inside the
grid, together with the centre value — the structuring element of the
grayscale dilation used by morphological reconstruction. -/
def neighborVals (g : QImg) (i j : ℕ) : List ℚ :=
  ([-1, 0, 1].flatMap (fun di => [-1, 0, 1].map (fun dj => ((i : ℤ) + di, (j : ℤ) + dj)))).filterMap
    (fun p =>
      if 0 ≤ p.1 ∧ p.1 < (g.rows : ℤ) ∧ 0 ≤ p.2 ∧ p.2 < (g.cols : ℤ) then
        some (g.val p.1.toNat p.2.toNat)
      else none)

/-- Grayscale dilation by the 3×3 structuring element (clipped at the
border). -/
def dilate (g : QImg) : QImg :=
  ⟨g.rows, g.cols, fun i j => (neighborVals g i j).foldl max (g.val i j)⟩

/-- One sweep of grayscale morphological reconstruction by dilation:
dilate the current image and clip it pointwise under the mask. -/
def reconStep (mask r : QImg) : QImg :=
  ⟨mask.rows, mask.cols, fun i j => min ((dilate r).val i j) (mask.val i j)⟩

/-- Iteration budget that reaches the fixed point of `reconStep`: the
sweep is pointwise monotone non-decreasing (for `seed ≤ mask`), every
pixel value always belongs to the at most `2·rows·cols` values of the
seed and mask grids, and each of the `rows·cols` pixels can therefore
rise at most `2·rows·cols` times. -/
def reconFuel (mask : QImg) : ℕ :=
  2 * mask.rows * mask.cols * mask.rows * mask.cols + 1

/-- Embedding of `skimage.morphology.reconstruction(seed, mask,
method='dilation')`: the limit of repeatedly dilating the seed and
clipping under the mask, reached within `reconFuel` sweeps. -/
def reconstruction (seed mask : QImg) : QImg :=
  (reconStep mask)^[reconFuel mask] seed

/-- Pointwise subtraction of a constant (`seed = image - h`). -/
def subConst (g : QImg) (h : ℚ) : QImg :=
  ⟨g.rows, g.cols, fun i j => g.val i j - h⟩

/-- Pointwise image subtraction (`hdome = image - dilated`). -/
def subImg (a b : QImg) : QImg :=
  ⟨a.rows, a.cols, fun i j => a.val i j - b.val i j⟩

/-- Embedding of `filter_regional_maxima(input_image, input_h)`: take
the blue channel, blur it (`gaussian_filter(image, 1)`, a third-party
smoothing kernel abstracted as the `blur` parameter), build
`seed = image - h`, `mask = image`, reconstruct by dilation, and return
`image - dilated`. -/
def filter_regional_maxima (blur : QImg → QImg) (input_image : RGBImg)
    (input_h : ℚ) : QImg :=
  let image := blur (blueChannel input_image)
  let seed := subConst image input_h
  let mask := image
  let dilated := reconstruction seed mask
  subImg image dilated

/-! ## Lemmas about `pyRound` -/

theorem floor_le_pyRound (q : ℚ) : ⌊q⌋ ≤ pyRound q := by
  unfold pyRound
  split_ifs <;> omega

theorem pyRound_le_floor_add_one (q : ℚ) : pyRound q ≤ ⌊q⌋ + 1 := by
  unfold pyRound
  split_ifs <;> omega

theorem pyRound_le_ceil (q : ℚ) : pyRound q ≤ ⌈q⌉ := by
  rcases eq_or_lt_of_le (Int.floor_le_ceil q) with h | h
  · have hcast : ((⌈q⌉ : ℚ)) = ((⌊q⌋ : ℚ)) := by exact_mod_cast h.symm
    have h1 := Int.floor_le q
    have h2 := Int.le_ceil q
    have hfrac : q - ⌊q⌋ = 0 := by linarith
    unfold pyRound
    rw [hfrac]
    rw [if_pos (by norm_num : (0 : ℚ) < 1/2)]
    omega
  · have := pyRound_le_floor_add_one q
    omega

theorem pyRound_mono {q r : ℚ} (h : q ≤ r) : pyRound q ≤ pyRound r := by
  have hf : ⌊q⌋ ≤ ⌊r⌋ := Int.floor_le_floor h
  rcases lt_or_eq_of_le hf with hlt | heq
  · have h1 := pyRound_le_floor_add_one q
    have h2 := floor_le_pyRound r
    omega
  · have hfr : q - ⌊q⌋ ≤ r - ⌊r⌋ := by
      have hc : ((⌊q⌋ : ℚ)) = ((⌊r⌋ : ℚ)) := by exact_mod_cast heq
      linarith
    unfold pyRound
    rw [heq]
    split_ifs <;> first | omega | linarith

theorem pyRound_natCast (n : ℕ) : pyRound (n : ℚ) = n := by
  unfold pyRound
  rw [Int.floor_natCast]
  norm_num

theorem pyRound_zero : pyRound 0 = 0 := by
  unfold pyRound
  norm_num

/-- Cropping with fraction 0 is a no-op on a rectangular image. -/
theorem crop_edges_zero {α : Type} (image : List (List α))
    (hrect : ∀ row ∈ image, row.length = numCols image) :
    crop_edges image 0 = image := by
  simp only [crop_edges, zero_mul, sub_zero, pyRound_zero, pyRound_natCast,
    Int.toNat_zero, Int.toNat_natCast, List.drop_zero]
  calc image.map (fun row => row.take (numCols image))
      = image.map id := by
        apply List.map_congr_left
        intro row hrow
        exact List.take_of_length_le (le_of_eq (hrect row hrow))
    _ = image := List.map_id image

/-! ## Claim C3: `crop_edges` output width -/

/-- Claim C3 counterexample: for a 1×10 image and crop fraction
`p = 0.03` the code keeps all 10 columns (`left = round(0.3) = 0`,
`right = round(9.7) = 10`), while the claimed width
`round(width × (1 − 2p)) = round(9.4) = 9`.  So the claimed width
formula is false. -/
theorem crop_edges_width_claim_false :
    ((crop_edges [List.range 10] (3/100)).head?.getD []).length = 10 ∧
    pyRound ((10 : ℚ) * (1 - 2 * (3/100))) = 9 ∧ (10 : ℕ) ≠ 9 := by
  have hnc : numCols [List.range 10] = 10 := rfl
  have hL : pyRound ((3 : ℚ)/100 * ((10 : ℕ) : ℚ)) = 0 := by
    norm_num [pyRound]
  have hR : pyRound (((10 : ℕ) : ℚ) - (3 : ℚ)/100 * ((10 : ℕ) : ℚ)) = 10 := by
    norm_num [pyRound]
  refine ⟨?_, by norm_num [pyRound], by decide⟩
  simp only [crop_edges, hnc, hL, hR]
  decide

/-- Claim C3 (amended): for every rectangular image of width `w` and
crop fraction `p ∈ [0, 0.5]`, the output width is exactly
`round(w − p·w) − round(p·w)` where `round` is Python's round half to
even; the left bound is `round(p·w)` and the right bound is
`round(w − p·w)` (not `w − round(p·w)`). -/
theorem crop_edges_width {α : Type} (input_image : List (List α)) (p : ℚ)
    (hrect : ∀ row ∈ input_image, row.length = numCols input_image)
    (h0 : 0 ≤ p) (h1 : p ≤ 1/2) :
    ∀ row ∈ crop_edges input_image p,
      (row.length : ℤ) =
        pyRound ((numCols input_image : ℚ) - p * numCols input_image) -
          pyRound (p * numCols input_image) := by
  intro row hrow
  simp only [crop_edges, List.mem_map] at hrow
  obtain ⟨row0, hrow0, rfl⟩ := hrow
  have hlen : row0.length = numCols input_image := hrect row0 hrow0
  have hwq : (0 : ℚ) ≤ (numCols input_image : ℚ) := by positivity
  have hpw : (0 : ℚ) ≤ p * numCols input_image := mul_nonneg h0 hwq
  have hL0 : 0 ≤ pyRound (p * (numCols input_image : ℚ)) :=
    le_trans (Int.floor_nonneg.mpr hpw) (floor_le_pyRound _)
  have hLR : pyRound (p * (numCols input_image : ℚ)) ≤
      pyRound ((numCols input_image : ℚ) - p * numCols input_image) := by
    apply pyRound_mono
    have := mul_le_mul_of_nonneg_right h1 hwq
    linarith
  have hRw : pyRound ((numCols input_image : ℚ) - p * numCols input_image) ≤
      (numCols input_image : ℤ) := by
    calc pyRound ((numCols input_image : ℚ) - p * numCols input_image)
        ≤ ⌈(numCols input_image : ℚ) - p * numCols input_image⌉ := pyRound_le_ceil _
      _ ≤ ⌈(numCols input_image : ℚ)⌉ := Int.ceil_le_ceil (by linarith)
      _ = (numCols input_image : ℤ) := Int.ceil_natCast _
  rw [List.length_drop, List.length_take, hlen]
  omega

theorem crop_edges_width_witness :
    (∀ row ∈ ([[(1:ℕ), 2, 3, 4]] : List (List ℕ)),
        row.length = numCols [[(1:ℕ), 2, 3, 4]]) ∧
    (0 : ℚ) ≤ 1/4 ∧ (1/4 : ℚ) ≤ 1/2 ∧
    ∀ row ∈ crop_edges ([[(1:ℕ), 2, 3, 4]] : List (List ℕ)) (1/4),
      (row.length : ℤ) =
        pyRound ((numCols ([[(1:ℕ), 2, 3, 4]] : List (List ℕ)) : ℚ)
            - (1/4) * numCols ([[(1:ℕ), 2, 3, 4]] : List (List ℕ)))
          - pyRound ((1/4 : ℚ) * numCols ([[(1:ℕ), 2, 3, 4]] : List (List ℕ))) :=
  ⟨by decide, by norm_num, by norm_num,
    crop_edges_width [[(1:ℕ), 2, 3, 4]] (1/4) (by decide) (by norm_num) (by norm_num)⟩

/-! ## Lemmas about `remove_bottom_edge` -/

theorem le_foldl_max (l : List ℕ) (a : ℕ) : a ≤ l.foldl max a := by
  induction l generalizing a with
  | nil => simp
  | cons x xs ih => exact le_trans (le_max_left a x) (ih (max a x))

theorem mem_le_foldl_max (l : List ℕ) (a v : ℕ) (hv : v ∈ l) : v ≤ l.foldl max a := by
  induction l generalizing a with
  | nil => cases hv
  | cons x xs ih =>
      rcases List.mem_cons.mp hv with rfl | h
      · exact le_trans (le_max_right a v) (le_foldl_max xs (max a v))
      · exact ih (max a x) h

theorem le_mask_foldl (m : Mask) (a : ℕ) :
    a ≤ m.foldl (fun acc row => row.foldl max acc) a := by
  induction m generalizing a with
  | nil => simp
  | cons r rest ih => exact le_trans (le_foldl_max r a) (ih _)

theorem entry_le_mask_foldl (m : Mask) (a : ℕ) (row : List ℕ) (v : ℕ)
    (hrow : row ∈ m) (hv : v ∈ row) :
    v ≤ m.foldl (fun acc r => r.foldl max acc) a := by
  induction m generalizing a with
  | nil => cases hrow
  | cons r rest ih =>
      rcases List.mem_cons.mp hrow with rfl | h
      · exact le_trans (mem_le_foldl_max row a v hv) (le_mask_foldl rest _)
      · exact ih _ h

theorem entry_le_maskMax (m : Mask) (row : List ℕ) (v : ℕ)
    (hrow : row ∈ m) (hv : v ∈ row) : v ≤ maskMax m :=
  entry_le_mask_foldl m 0 row v hrow hv

theorem lastRow_map (m : Mask) (t : ℕ → ℕ) :
    lastRow (m.map (List.map t)) = (lastRow m).map t := by
  unfold lastRow
  rw [List.getLast?_map]
  cases m.getLast? <;> simp

theorem succ_mem_map_zeroUpTo (rr : List ℕ) (n : ℕ) (l : List ℕ) :
    (n + 1) ∈ l.map (zeroUpTo rr n) ↔ (n + 1) ∈ l := by
  simp only [List.mem_map]
  constructor
  · rintro ⟨v, hv, he⟩
    unfold zeroUpTo at he
    split at he
    · omega
    · exact he ▸ hv
  · intro hmem
    refine ⟨n + 1, hmem, ?_⟩
    unfold zeroUpTo
    rw [if_neg]
    intro hc
    exact absurd hc.2.1 (by omega)

theorem zeroUpTo_succ_mem (rr : List ℕ) (n v : ℕ) (hmem : (n + 1) ∈ rr) :
    (if zeroUpTo rr n v = n + 1 then 0 else zeroUpTo rr n v) = zeroUpTo rr (n + 1) v := by
  unfold zeroUpTo
  by_cases hc : v ≠ 0 ∧ v ≤ n ∧ v ∈ rr
  · rw [if_pos hc, if_neg (by omega : ¬ (0 : ℕ) = n + 1),
      if_pos ⟨hc.1, by omega, hc.2.2⟩]
  · rw [if_neg hc]
    by_cases hv : v = n + 1
    · rw [if_pos hv, if_pos ⟨by omega, by omega, hv ▸ hmem⟩]
    · rw [if_neg hv, if_neg]
      intro h2
      exact hc ⟨h2.1, by omega, h2.2.2⟩

theorem zeroUpTo_succ_notmem (rr : List ℕ) (n v : ℕ) (hmem : (n + 1) ∉ rr) :
    zeroUpTo rr n v = zeroUpTo rr (n + 1) v := by
  unfold zeroUpTo
  by_cases hc : v ≠ 0 ∧ v ≤ n ∧ v ∈ rr
  · rw [if_pos hc, if_pos ⟨hc.1, by omega, hc.2.2⟩]
  · rw [if_neg hc, if_neg]
    intro h2
    have hv : v ≠ n + 1 := fun he => hmem (he ▸ h2.2.2)
    exact hc ⟨h2.1, by omega, h2.2.2⟩

/-- Running the first `n` loop iterations of `remove_bottom_edge` zeroes
exactly the labels `1..n` that occur in the (original) bottom row. -/
theorem foldl_removeStep_eq (m : Mask) (n : ℕ) :
    (List.range' 1 n).foldl removeStep m = m.map (List.map (zeroUpTo (lastRow m) n)) := by
  induction n with
  | zero =>
      have hz : ∀ row ∈ m, row.map (zeroUpTo (lastRow m) 0) = row := by
        intro row _
        have hv : ∀ v ∈ row, zeroUpTo (lastRow m) 0 v = v := by
          intro v _
          unfold zeroUpTo
          rw [if_neg]
          intro hc
          exact hc.1 (Nat.le_zero.mp hc.2.1)
        rw [List.map_congr_left hv, List.map_id']
      simp only [List.range', List.foldl_nil]
      rw [List.map_congr_left hz, List.map_id']
  | succ n ih =>
      rw [List.range'_concat, List.foldl_append, ih, List.foldl_cons, List.foldl_nil]
      unfold removeStep
      rw [lastRow_map]
      have hone : 1 + 1 * n = n + 1 := by omega
      rw [hone]
      by_cases hmem : (n + 1) ∈ lastRow m
      · rw [if_pos ((succ_mem_map_zeroUpTo _ _ _).mpr hmem)]
        rw [List.map_map]
        apply List.map_congr_left
        intro row _
        simp only [Function.comp_apply]
        rw [List.map_map]
        apply List.map_congr_left
        intro v _
        simp only [Function.comp_apply]
        exact zeroUpTo_succ_mem (lastRow m) n v hmem
      · rw [if_neg (fun hc => hmem ((succ_mem_map_zeroUpTo _ _ _).mp hc))]
        apply List.map_congr_left
        intro row _
        apply List.map_congr_left
        intro v _
        exact zeroUpTo_succ_notmem (lastRow m) n v hmem

/-- Pointwise characterisation of `remove_bottom_edge`: a pixel is
zeroed exactly when its (positive) label occurs in the bottom row. -/
theorem remove_bottom_edge_eq_map (m : Mask) :
    remove_bottom_edge m =
      m.map (List.map (fun v => if v ≠ 0 ∧ v ∈ lastRow m then 0 else v)) := by
  rw [remove_bottom_edge, foldl_removeStep_eq]
  apply List.map_congr_left
  intro row hrow
  apply List.map_congr_left
  intro v hv
  have hle := entry_le_maskMax m row v hrow hv
  unfold zeroUpTo
  by_cases h2 : v ≠ 0 ∧ v ∈ lastRow m
  · rw [if_pos ⟨h2.1, hle, h2.2⟩, if_pos h2]
  · rw [if_neg (fun hc => h2 ⟨hc.1, hc.2.2⟩), if_neg h2]

/-- Claim C4: after `remove_bottom_edge`, every positive label that
occurs in the mask's bottom row occurs nowhere in the result, and every
pixel is either zeroed (exactly when its positive label occurs in the
bottom row) or left unchanged — in particular pixels whose label does
not occur in the bottom row are unchanged.  The nonemptiness hypothesis
mirrors numpy, where `mask[-1, :]` and `np.max(mask)` require a
nonempty array. -/
theorem remove_bottom_edge_spec (m : Mask) (_hm : m ≠ []) :
    (∀ k, k ≠ 0 → k ∈ lastRow m → ∀ row ∈ remove_bottom_edge m, k ∉ row) ∧
    remove_bottom_edge m =
      m.map (List.map (fun v => if v ≠ 0 ∧ v ∈ lastRow m then 0 else v)) := by
  refine ⟨?_, remove_bottom_edge_eq_map m⟩
  intro k hk0 hkr row hrow hkm
  rw [remove_bottom_edge_eq_map] at hrow
  rcases List.mem_map.mp hrow with ⟨row0, _, rfl⟩
  rcases List.mem_map.mp hkm with ⟨v, _, hveq⟩
  by_cases hc : v ≠ 0 ∧ v ∈ lastRow m
  · rw [if_pos hc] at hveq
    exact hk0 hveq.symm
  · rw [if_neg hc] at hveq
    subst hveq
    exact hc ⟨hk0, hkr⟩

theorem remove_bottom_edge_spec_witness :
    ([[1, 2], [0, 1]] : Mask) ≠ [] ∧ (1 : ℕ) ∉ ([0, 2] : List ℕ) :=
  ⟨by decide,
    (remove_bottom_edge_spec [[1, 2], [0, 1]] (by decide)).1 1 (by decide) (by decide)
      [0, 2] (by decide)⟩

/-- Claim C9: `remove_bottom_edge` is idempotent — one pass zeroes every
positive bottom-row label, so the bottom row of the output contains only
zeros and a second pass changes nothing. -/
theorem remove_bottom_edge_idem (m : Mask) (_hm : m ≠ []) :
    remove_bottom_edge (remove_bottom_edge m) = remove_bottom_edge m := by
  have h1 := remove_bottom_edge_eq_map m
  have hlast : ∀ x ∈ lastRow (remove_bottom_edge m), x = 0 := by
    rw [h1, lastRow_map]
    intro x hx
    rcases List.mem_map.mp hx with ⟨v, hv, rfl⟩
    by_cases h0 : v = 0
    · rw [if_neg (fun hc => hc.1 h0)]
      exact h0
    · rw [if_pos ⟨h0, hv⟩]
  rw [remove_bottom_edge_eq_map (remove_bottom_edge m)]
  have hrows : ∀ row ∈ remove_bottom_edge m,
      row.map (fun v => if v ≠ 0 ∧ v ∈ lastRow (remove_bottom_edge m) then 0 else v)
        = row := by
    intro row _
    have hv : ∀ v ∈ row,
        (if v ≠ 0 ∧ v ∈ lastRow (remove_bottom_edge m) then 0 else v) = v := by
      intro v _
      rw [if_neg]
      intro hc
      exact hc.1 (hlast v hc.2)
    rw [List.map_congr_left hv, List.map_id']
  rw [List.map_congr_left hrows, List.map_id']

theorem remove_bottom_edge_idem_witness :
    ([[1], [1]] : Mask) ≠ [] ∧
      remove_bottom_edge (remove_bottom_edge [[1], [1]]) = remove_bottom_edge [[1], [1]] :=
  ⟨by decide, remove_bottom_edge_idem [[1], [1]] (by decide)⟩

/-! ## Alignment of `find_centers` and `mean_intensity` -/

theorem rowLabelCols_eq_nil_iff (row : List ℕ) (l j : ℕ) :
    rowLabelCols row l j = [] ↔ l ∉ row := by
  induction row generalizing j with
  | nil => simp [rowLabelCols]
  | cons v rest ih =>
      unfold rowLabelCols
      by_cases hv : v = l
      · subst hv
        simp
      · rw [if_neg hv, ih (j + 1)]
        simp only [List.mem_cons, not_or]
        exact ⟨fun h => ⟨fun he => hv he.symm, h⟩, fun h => h.2⟩

theorem labelPixelsAux_eq_nil_iff (m : Mask) (l i : ℕ) :
    labelPixelsAux m l i = [] ↔ ∀ row ∈ m, l ∉ row := by
  induction m generalizing i with
  | nil => simp [labelPixelsAux]
  | cons row rest ih =>
      unfold labelPixelsAux
      rw [List.append_eq_nil, List.map_eq_nil_iff, rowLabelCols_eq_nil_iff, ih (i + 1)]
      simp

theorem containsLabel_iff (m : Mask) (l : ℕ) :
    containsLabel m l = true ↔ labelPixels m l ≠ [] := by
  unfold containsLabel labelPixels
  rw [ne_eq, labelPixelsAux_eq_nil_iff]
  simp only [List.any_eq_true, beq_iff_eq]
  constructor
  · rintro ⟨row, hrow, v, hv, rfl⟩
    intro hall
    exact hall row hrow hv
  · intro h
    push_neg at h
    obtain ⟨row, hrow, hv⟩ := h
    exact ⟨row, hrow, l, hv, rfl⟩

theorem center_of_mass_eq (m : Mask) (l : ℕ) :
    center_of_mass m l =
      if containsLabel m l then some (centroidOf m l) else none := by
  unfold center_of_mass centroidOf
  by_cases h : labelPixels m l = []
  · rw [if_pos h, if_neg]
    rw [containsLabel_iff]
    simp [h]
  · rw [if_neg h, if_pos ((containsLabel_iff m l).mpr h)]

/-- General shape lemma: a `filterMap` whose function is an
`if p then some (g _) else none` is the `map` of `g` over the `filter`
of `p`. -/
theorem filterMap_ite_eq_map_filter {α β : Type} (f : α → Option β) (p : α → Bool)
    (g : α → β) (hf : ∀ a, f a = if p a then some (g a) else none) (l : List α) :
    l.filterMap f = (l.filter p).map g := by
  induction l with
  | nil => rfl
  | cons x xs ih =>
      rw [List.filterMap_cons, List.filter_cons, hf x]
      by_cases hp : p x
      · rw [if_pos hp, if_pos hp, List.map_cons, ih]
      · rw [if_neg hp, if_neg hp, ih]

/-- Claim C2: on any (image, mask) pair, `find_centers` and
`mean_intensity` enumerate exactly the surviving labels (those with at
least one pixel) of `1 .. np.max(mask)` in ascending label order — both
are the map of a per-label summary over `survivingLabels` — and in
particular the two output sequences have equal length, so corresponding
positions refer to the same object. -/
theorem find_centers_mean_intensity_aligned (input_image : Image) (input_mask : Mask) :
    find_centers input_mask = (survivingLabels input_mask).map (centroidOf input_mask) ∧
    mean_intensity input_image input_mask
      = (survivingLabels input_mask).map (meanTripleOf input_image input_mask) ∧
    (find_centers input_mask).length = (mean_intensity input_image input_mask).length := by
  have h1 : find_centers input_mask
      = (survivingLabels input_mask).map (centroidOf input_mask) := by
    unfold find_centers survivingLabels
    rw [List.filterMap_map]
    exact filterMap_ite_eq_map_filter _ _ _
      (fun l => by rw [Function.comp_apply, id_eq, center_of_mass_eq]) _
  have h2 : mean_intensity input_image input_mask
      = (survivingLabels input_mask).map (meanTripleOf input_image input_mask) := by
    unfold mean_intensity survivingLabels meanTripleOf
    exact filterMap_ite_eq_map_filter _ _ _ (fun l => rfl) _
  exact ⟨h1, h2, by rw [h1, h2, List.length_map, List.length_map]⟩

/-! ## `which_is_more_green`: claims C10 and C1 -/

/-- Claim C10: canonicalisation never changes the partition.  For label
sequences drawn from {0, 1} (as two-cluster k-means produces),
`which_is_more_green` returns either the input labels unchanged or their
pointwise 0↔1 complement, so any two triples assigned to the same group
stay in the same group. -/
theorem which_is_more_green_partition (rgb_input : List (ℚ × ℚ × ℚ)) (labels_ : List ℕ)
    (h : ∀ l ∈ labels_, l = 0 ∨ l = 1) :
    which_is_more_green rgb_input labels_ = labels_ ∨
    which_is_more_green rgb_input labels_ = labels_.map (fun l => 1 - l) := by
  simp only [which_is_more_green]
  split_ifs with hc
  · right
    rw [List.map_map, List.map_map]
    apply List.map_congr_left
    intro l hl
    rcases h l hl with rfl | rfl <;> rfl
  · left
    rfl

theorem which_is_more_green_partition_witness :
    (∀ l ∈ ([0, 1] : List ℕ), l = 0 ∨ l = 1) ∧
      (which_is_more_green [((0:ℚ), 0, 0), (0, 1, 0)] [0, 1] = [0, 1] ∨
        which_is_more_green [((0:ℚ), 0, 0), (0, 1, 0)] [0, 1]
          = ([0, 1] : List ℕ).map (fun l => 1 - l)) :=
  ⟨by decide, which_is_more_green_partition _ _ (by decide)⟩

/-- Claim C1 fails on the code.  With triples
`[(100, 5, 0), (0, 0, 0), (0, 20, 0)]` and initial k-means labels
`[0, 1, 1]` (a valid converged two-cluster partition of these points:
the lone red-dominated triple versus the two others), group 0 has green
mean 5 and group 1 has green mean 10, so the spec requires the labels to
be swapped; but `label_1_green_mean` is computed by integer fancy
indexing `all_green_intensity[labels_]` — here
`mean([5, 5... [greens[0], greens[1], greens[1]]]) = 5/3` — so the swap
condition `5 < 5/3` is false and the labels come back unchanged, leaving
group 0 with the LOWER mean channel-1 intensity. -/
theorem which_is_more_green_fancy_indexing_bug :
    which_is_more_green [((100:ℚ), 5, 0), (0, 0, 0), (0, 20, 0)] [0, 1, 1] = [0, 1, 1] ∧
    groupGreenMean [((100:ℚ), 5, 0), (0, 0, 0), (0, 20, 0)] [0, 1, 1] 0 <
      groupGreenMean [((100:ℚ), 5, 0), (0, 0, 0), (0, 20, 0)] [0, 1, 1] 1 := by
  have h1 : List.filterMap (fun p => if p.2 = 0 then some p.1 else none)
      [((5:ℚ), (0:ℕ)), (0, 1), (20, 1)] = [5] := rfl
  have h2 : List.filterMap (fun p => if p.2 = 1 then some p.1 else none)
      [((0:ℚ), (1:ℕ)), (20, 1)] = [0, 20] := rfl
  constructor
  · simp only [which_is_more_green]
    norm_num [qmean, h1]
  · simp only [groupGreenMean]
    norm_num [qmean, h1, h2]

/-! ## `count_kernels`: claims C5 and C8; markers: claim C6 -/

/-- Claim C5: if the Intensity Summarizer yields zero triples, the
pipeline returns the count pair (0, 0).  No clustering is attempted —
the result holds for every clustering oracle, including one standing for
a failing clusterer — and no error is raised (the guard
`rgb_intensity.shape[0] == 0` returns before `KMeans` is reached). -/
theorem count_kernels_zero_objects (segmenter : Image → Mask)
    (oracle : List (ℚ × ℚ × ℚ) → List ℕ) (raw_image : Image) (crop_percentage : ℚ)
    (h : mean_intensity (crop_edges raw_image crop_percentage)
        (remove_bottom_edge (segmenter (crop_edges raw_image crop_percentage))) = []) :
    count_kernels segmenter oracle raw_image crop_percentage = some [0, 0] := by
  simp only [count_kernels]
  rw [h]
  rfl

theorem count_kernels_zero_objects_witness :
    mean_intensity (crop_edges ([[((0:ℚ), 0, 0)]] : Image) 0)
        (remove_bottom_edge ((fun _ => [[0]]) (crop_edges ([[((0:ℚ), 0, 0)]] : Image) 0)))
      = [] ∧
    count_kernels (fun _ => [[0]]) (fun _ => []) [[((0:ℚ), 0, 0)]] 0 = some [0, 0] :=
  ⟨rfl, count_kernels_zero_objects (fun _ => [[0]]) (fun _ => []) [[((0:ℚ), 0, 0)]] 0 rfl⟩

/-- Claim C8 fails on the code: with exactly one intensity triple the
pipeline does not complete with a total count of 1.
`KMeans(n_clusters=2).fit` raises `ValueError` when `n_samples = 1 <
n_clusters = 2` (the `none` branch of `kmeans_from_rgb`), so
`count_kernels` propagates the failure instead of producing two
well-defined groups — here evaluated on an image whose segmentation
yields exactly one surviving object.  (Even if clustering were skipped,
`np.unique` over a single label would yield a length-1 counts array and
the caller's `count_kernels_output[1]` would raise `IndexError`.) -/
theorem count_kernels_single_object_raises :
    count_kernels (fun _ => [[1], [0]]) (fun _ => [])
      [[((1:ℚ), 2, 3)], [(0, 0, 0)]] 0 = none := rfl

/-- Claim C6 fails on the code: no code validates the crop fraction or
the watershed thresholds — argument parsing enforces only the types, and
with `watershed_low = 80 ≥ 20 = watershed_high` the marker construction
of `region_based_segmentation` still produces an ordinary marker grid
(the `> high` assignment overwrites the `< low` one wherever both hold),
so processing continues with no validation error naming the parameter. -/
theorem watershed_markers_no_validation :
    watershed_markers [[0, 50, 100, 200]] 80 20 = [[1, 2, 2, 2]] := by decide

/-! ## `filter_regional_maxima`: claim C7 -/

theorem reconstruction_le_mask (seed mask : QImg)
    (hseed : ∀ i j, seed.val i j ≤ mask.val i j) (i j : ℕ) :
    (reconstruction seed mask).val i j ≤ mask.val i j := by
  unfold reconstruction
  generalize reconFuel mask = n
  induction n with
  | zero => exact hseed i j
  | succ n _ =>
      rw [Function.iterate_succ_apply']
      exact min_le_right _ _

/-- Claim C7: the dome image produced by `filter_regional_maxima` is
pointwise nonnegative — the reconstruction by dilation of
`seed = blurred − h` under `mask = blurred` never exceeds the mask at
any sweep, so `blurred − dilated ≥ 0` everywhere.  The hypothesis
`0 ≤ h` matches skimage, which rejects seeds exceeding the mask with a
`ValueError` before producing any output, so dome images only ever exist
for `h ≥ 0`. -/
theorem filter_regional_maxima_nonneg (blur : QImg → QImg) (input_image : RGBImg)
    (input_h : ℚ) (h : 0 ≤ input_h) (i j : ℕ) :
    0 ≤ (filter_regional_maxima blur input_image input_h).val i j := by
  simp only [filter_regional_maxima, subImg]
  have hle := reconstruction_le_mask (subConst (blur (blueChannel input_image)) input_h)
    (blur (blueChannel input_image))
    (fun i j => by simp only [subConst]; linarith) i j
  linarith

theorem filter_regional_maxima_nonneg_witness :
    (0 : ℚ) ≤ 3/10 ∧
      0 ≤ (filter_regional_maxima id ⟨1, 1, fun _ _ => (0, 0, 0)⟩ (3/10)).val 0 0 :=
  ⟨by norm_num,
    filter_regional_maxima_nonneg id ⟨1, 1, fun _ _ => (0, 0, 0)⟩ (3/10) (by norm_num) 0 0⟩

end SKKernelCounter
